import Mathlib

set_option maxRecDepth 16000

/-!
Verification of the real-time signal pipeline of `bci_demo_ui.py`
(`BCIMainWindow` and `DataSimulatorThread`).

The state of the main window is embedded as a Lean structure; the Qt slot
methods `on_new_eeg_data`, `on_new_inference`, `toggle_connection` and
`update_plots` become pure state-transition functions.  Python `deque`s of
`maxlen=1000` are embedded as lists whose push keeps the most recent 1000
elements.  Floating-point values are modelled by exact rationals (and reals
for the transcendental spectral mathematics); sample values are a type
parameter `α`, matching the fact that the Python ingestion code stores
whatever objects a batch contains, without inspecting them.
-/

namespace BCI

/-- Keep the most recent `N` elements of `xs` (the contents of a
`deque(maxlen := N)` after pushing the whole of `xs` in order). -/
def lastN {α : Type} (N : ℕ) (xs : List α) : List α :=
  xs.drop (xs.length - N)

/-- One `append` on a `deque(maxlen := N)`: append, evicting the oldest
element once capacity is reached. -/
def dequePush {α : Type} (N : ℕ) (xs : List α) (x : α) : List α :=
  lastN N (xs ++ [x])

/-- The `DataSimulatorThread` worker object, reduced to the field the
session lifecycle reads and writes: its cooperative `running` flag
(`stop()` sets it to `False`). -/
structure SimThread where
  running : Bool
  deriving Repr, DecidableEq

/-- The state of `BCIMainWindow`: the producer-owned data fields created in
`__init__` (channel deques, time-axis deque, time counter, latest
probability vector, connection flag, worker thread) together with the
widget state that the slot methods write (label texts, curve data, bar
heights, the displayed spectral frame).  `α` is the type of one EEG sample
value. -/
structure BCIState (α : Type) where
  eeg_buffers : List (List α)
  time_buffer : List ℚ
  time_counter : ℚ
  inference_probs : List ℚ
  is_connected : Bool
  data_thread : Option SimThread
  connect_btn_text : String
  connection_status_text : String
  model_label_text : String
  samples_label_text : String
  class_text : String
  confidence_val : Option ℚ
  curve_data : List (List ℚ × List α)
  bar_heights : List ℚ
  spectrum_data : Option (List (ℚ × ℝ))
  fps_text : String
  packets_count : ℤ

/-- The window state after `BCIMainWindow.__init__`: 8 empty channel
deques, an empty time axis, `time_counter = 0`, `inference_probs =
[0.5, 0.5]`, disconnected, no worker thread, and the initial widget
texts. -/
def initState {α : Type} : BCIState α where
  eeg_buffers := List.replicate 8 []
  time_buffer := []
  time_counter := 0
  inference_probs := [1/2, 1/2]
  is_connected := false
  data_thread := none
  connect_btn_text := "🔌 连接设备"
  connection_status_text := "● 未连接"
  model_label_text := "模型: CTNet (未加载)"
  samples_label_text := "采样率: -- Hz"
  class_text := "待检测"
  confidence_val := none
  curve_data := []
  bar_heights := [1/2, 1/2]
  spectrum_data := none
  fps_text := "FPS: --"
  packets_count := 0

/-- The inner loop of `on_new_eeg_data` for one sample index `i`:
`for ch in range(self.n_channels): self.eeg_buffers[ch].append(data[ch, i])`.
A failed lookup `data[ch, i]` is the Python `IndexError`: the loop aborts,
returning the buffers mutated so far and the flag `false`. -/
def appendChannels {α : Type} (data : List (List α)) (i : ℕ) :
    List ℕ → List (List α) → List (List α) × Bool
  | [], bufs => (bufs, true)
  | ch :: rest, bufs =>
    match (data.get? ch).bind (fun row => row.get? i) with
    | none => (bufs, false)
    | some v =>
      appendChannels data i rest (bufs.set ch (dequePush 1000 (bufs.getD ch []) v))

/-- The outer loop of `on_new_eeg_data` over the sample indices of the
batch: push the current `time_counter` onto the time deque, advance the
counter by the hardcoded `1/250`, then append one value per channel.  The
`Bool` is `false` when an `IndexError` aborted the method, in which case
the state mutated so far is kept (Python mutates the window in place). -/
def sampleLoop {α : Type} (data : List (List α)) :
    List ℕ → BCIState α → BCIState α × Bool
  | [], st => (st, true)
  | i :: rest, st =>
    let st1 := { st with
      time_buffer := dequePush 1000 st.time_buffer st.time_counter
      time_counter := st.time_counter + 1/250 }
    let res := appendChannels data i (List.range 8) st1.eeg_buffers
    if res.2 then
      sampleLoop data rest { st1 with eeg_buffers := res.1 }
    else
      ({ st1 with eeg_buffers := res.1 }, false)

/-- `BCIMainWindow.on_new_eeg_data` (lines 435-449): `batch_size` is the
second dimension of the delivered array, the sample loop fills the deques,
and on success the sample-rate label is updated. -/
def on_new_eeg_data {α : Type} (st : BCIState α) (data : List (List α)) :
    BCIState α × Bool :=
  let batch_size := (data.headD []).length
  let res := sampleLoop data (List.range batch_size) st
  if res.2 then
    ({ res.1 with samples_label_text := "采样率: 250 Hz" }, true)
  else
    res

/-- Python `max` over a list of rationals (`max(probs)` in
`on_new_inference`). -/
def pyMax (l : List ℚ) : ℚ :=
  match l with
  | [] => 0
  | x :: xs => xs.foldl max x

/-- `BCIMainWindow.on_new_inference` (lines 451-480): store the vector,
set the class-indicator text by comparing `probs[0] > probs[1]`, and set
the confidence to `max(probs) * 100`. -/
def on_new_inference {α : Type} (st : BCIState α) (probs : List ℚ) :
    BCIState α :=
  let st1 := { st with inference_probs := probs }
  let st2 :=
    if probs.getD 0 0 > probs.getD 1 0 then
      { st1 with class_text := "← 左手" }
    else
      { st1 with class_text := "右手 →" }
  { st2 with confidence_val := some (pyMax probs * 100) }

/-- `np.clip(x, 0.05, 0.95)` on one component. -/
def clip (lo hi x : ℚ) : ℚ := min hi (max lo x)

/-- The probability post-processing of `DataSimulatorThread.run`
(lines 77-79): `probs = np.clip(probs, 0.05, 0.95); probs = probs /
probs.sum()`. -/
def clampRenormalize (probs : List ℚ) : List ℚ :=
  let c := probs.map (clip (5/100) (95/100))
  c.map (fun p => p / c.sum)

/-- The `else` branch of `BCIMainWindow.toggle_connection` (lines 421-433):
stop and join the worker thread if present, restore the disconnected label
texts, and clear `is_connected`.  Note that no buffer is cleared here. -/
def disconnectSession {α : Type} (st : BCIState α) : BCIState α :=
  let st1 :=
    match st.data_thread with
    | some t => { st with data_thread := some { t with running := false } }
    | none => st
  { st1 with
    connect_btn_text := "🔌 连接设备"
    connection_status_text := "● 未连接"
    model_label_text := "模型: CTNet (未加载)"
    is_connected := false }

/-- The `then` branch of `BCIMainWindow.toggle_connection` (lines 399-420):
set the connected label texts, start a fresh worker thread, and set
`is_connected`.  (The two 2-second `QTimer.singleShot` re-enable callbacks
are wall-clock effects outside the state model.) -/
def connectSession {α : Type} (st : BCIState α) : BCIState α :=
  { st with
    connect_btn_text := "⚡ 已连接"
    connection_status_text := "● 已连接"
    model_label_text := "模型: CTNet (已加载)"
    data_thread := some { running := true }
    is_connected := true }

/-- `BCIMainWindow.toggle_connection` (lines 397-433). -/
def toggle_connection {α : Type} (st : BCIState α) : BCIState α :=
  if st.is_connected then disconnectSession st else connectSession st

/-- `np.hanning(M)` at index `n`: `0.5 - 0.5 * cos(2 * pi * n / (M - 1))`. -/
noncomputable def hannW (M n : ℕ) : ℝ :=
  1/2 - 1/2 * Real.cos (2 * Real.pi * n / ((M : ℝ) - 1))

/-- Magnitude of one bin of `np.fft.rfft`: the absolute value of
`sum_j y_j * exp(-2 * pi * I * j * k / n)`. -/
noncomputable def dftMag (y : ℕ → ℝ) (n k : ℕ) : ℝ :=
  Complex.abs (∑ j ∈ Finset.range n,
    (y j : ℂ) * Complex.exp (-(2 * Real.pi * Complex.I * j * k) / n))

/-- `np.fft.rfftfreq(n, d)`: the `n / 2 + 1` nonnegative sample
frequencies `k / (n * d)`. -/
def rfftfreq (n : ℕ) (d : ℚ) : List ℚ :=
  (List.range (n / 2 + 1)).map (fun k : ℕ => (k : ℚ) / (n * d))

/-- The logarithmic power scale of `update_plots`:
`20 * log10(|X| + 1e-10)`. -/
noncomputable def powerDB (m : ℝ) : ℝ :=
  20 * Real.logb 10 (m + 1e-10)

/-- The spectral block of `BCIMainWindow.update_plots` (lines 499-509):
if at least 256 reference-channel samples are buffered, take the most
recent 256, multiply by the Hann window, compute the magnitude of the
real FFT, convert to dB with `epsilon = 1e-10`, pair each bin with its
frequency, and keep only the bins with frequency at most 50 Hz; with
fewer than 256 samples no frame is produced. -/
noncomputable def computeSpectrum (buf : List ℚ) : Option (List (ℚ × ℝ)) :=
  if 256 ≤ buf.length then
    let seg := lastN 256 buf
    let y : ℕ → ℝ := fun j => ((seg.getD j 0 : ℚ) : ℝ) * hannW 256 j
    let freqs := rfftfreq 256 (1/250)
    some ((((List.range 129).map
      (fun k => (freqs.getD k 0, powerDB (dftMag y 256 k))))).filter
        (fun p => p.1 ≤ 50))
  else
    none

/-- `BCIMainWindow.update_plots` (lines 482-516): a no-op unless connected
and at least one sample has arrived; otherwise refresh the curve data, the
probability bars, the spectral frame (when 256 samples are available;
otherwise the previously displayed frame is kept), the FPS text and the
packet counter.  None of the producer-owned fields is written. -/
noncomputable def update_plots (st : BCIState ℚ) : BCIState ℚ :=
  if st.is_connected = false ∨ st.time_buffer = [] then st
  else
    let st1 := { st with
      curve_data := (List.range 8).map
        (fun ch => (st.time_buffer, st.eeg_buffers.getD ch [])) }
    let st2 := { st1 with bar_heights := st.inference_probs }
    let st3 :=
      match computeSpectrum (st.eeg_buffers.getD 0 []) with
      | some frame => { st2 with spectrum_data := some frame }
      | none => st2
    { st3 with
      fps_text := "FPS: 20"
      packets_count := ⌊st.time_counter * 250 / 10⌋ }

/-- Deliver a sequence of batches through `on_new_eeg_data`, keeping the
(possibly torn) state each delivery leaves behind. -/
def ingestBatches {α : Type} (st : BCIState α)
    (batches : List (List (List α))) : BCIState α :=
  batches.foldl (fun s b => (on_new_eeg_data s b).1) st

/-- The `batch_size` the ingestion code reads off a batch: the length of
its first row (`data.shape[1]` of a rectangular array). -/
def batchSize {α : Type} (b : List (List α)) : ℕ := (b.headD []).length

/-- Total number of samples (per channel) carried by a sequence of
batches. -/
def totalSamples {α : Type} (batches : List (List (List α))) : ℕ :=
  (batches.map batchSize).sum

/-- A well-formed delivered batch: at least the 8 channels the window
reads, all channel rows of equal length (a rectangular array). -/
def WFBatch {α : Type} (b : List (List α)) : Prop :=
  8 ≤ b.length ∧ ∀ r ∈ b, r.length = batchSize b

/-- The reconstructed time axis the spec describes: `n` samples ending
just below the running counter `tc`, spaced `1/250` apart. -/
def timeAxis (tc : ℚ) (n : ℕ) : List ℚ :=
  (List.range n).map (fun j => tc - ((n - j : ℕ) : ℚ) * (1/250))

/-- Buffer-shape invariant of a window state: 8 channel deques, all of
length `n`, a time axis of the same length `n ≤ 1000` whose contents are
the arithmetic tail `timeAxis` of the running counter. -/
def BufLen {α : Type} (st : BCIState α) (n : ℕ) : Prop :=
  st.eeg_buffers.length = 8 ∧
  (∀ b ∈ st.eeg_buffers, b.length = n) ∧
  st.time_buffer.length = n ∧
  n ≤ 1000 ∧
  st.time_buffer = timeAxis st.time_counter n

/-- Reference definition, following the spec words of the amended claim
C4: the argmax of a probability list where a later index wins exact
ties. -/
def argmaxFrom : ℕ → ℕ → ℚ → List ℚ → ℕ
  | _, best, _, [] => best
  | i, best, bv, x :: xs =>
    if bv ≤ x then argmaxFrom (i + 1) i x xs
    else argmaxFrom (i + 1) best bv xs

/-- Argmax of a probability list, the last index winning ties (`0` for an
empty list). -/
def argmaxTieLast : List ℚ → ℕ
  | [] => 0
  | x :: xs => argmaxFrom 1 0 x xs

/-- A concrete window state whose reference channel holds exactly 256
samples, used to witness spectral readiness. -/
def specReadyState : BCIState ℚ :=
  { initState with
    eeg_buffers := List.replicate 8 (List.replicate 256 0)
    time_buffer := List.replicate 256 0
    is_connected := true }

end BCI

namespace BCI

theorem lastN_length {α : Type} (N : ℕ) (l : List α) :
    (lastN N l).length = min N l.length := by
  simp [lastN]; omega

theorem lastN_of_le {α : Type} {N : ℕ} {l : List α} (h : l.length ≤ N) :
    lastN N l = l := by
  simp [lastN, Nat.sub_eq_zero_of_le h]

theorem lastN_length_le {α : Type} (N : ℕ) (l : List α) :
    (lastN N l).length ≤ N := by
  rw [lastN_length]; omega

theorem lastN_append_right {α : Type} (l₁ : List α) {N : ℕ} {l₂ : List α}
    (h : N ≤ l₂.length) : lastN N (l₁ ++ l₂) = lastN N l₂ := by
  unfold lastN
  have h1 : (l₁ ++ l₂).length - N = l₁.length + (l₂.length - N) := by
    simp; omega
  rw [h1, List.drop_append]

theorem lastN_lastN_append {α : Type} (N : ℕ) (xs ys : List α) :
    lastN N (lastN N xs ++ ys) = lastN N (xs ++ ys) := by
  by_cases h : xs.length ≤ N
  · rw [lastN_of_le h]
  · push_neg at h
    have hlen : N ≤ (lastN N xs ++ ys).length := by
      rw [List.length_append, lastN_length]; omega
    have hx : xs.take (xs.length - N) ++ lastN N xs = xs :=
      List.take_append_drop _ xs
    calc lastN N (lastN N xs ++ ys)
        = lastN N (xs.take (xs.length - N) ++ (lastN N xs ++ ys)) :=
          (lastN_append_right _ hlen).symm
      _ = lastN N (xs ++ ys) := by rw [← List.append_assoc, hx]

theorem getElem?_eq_some_getD {α : Type} {l : List α} {n : ℕ} (d : α)
    (h : n < l.length) : l[n]? = some (l.getD n d) := by
  rw [List.getElem?_eq_getElem h]
  simp [List.getD_eq_getElem?_getD, List.getElem?_eq_getElem h]

theorem getD_map_range {β : Type} (f : ℕ → β) {n j : ℕ} (d : β) (h : j < n) :
    ((List.range n).map f).getD j d = f j := by
  simp [List.getD_eq_getElem?_getD, List.getElem?_range h]

theorem map_getD_range {β : Type} (l : List β) (d : β) :
    (List.range l.length).map (fun i => l.getD i d) = l := by
  apply List.ext_getElem?
  intro n
  by_cases h : n < l.length
  · simp [List.getElem?_range h, List.getD_eq_getElem?_getD,
      List.getElem?_eq_getElem h]
  · push_neg at h
    have h1 : ((List.range l.length).map (fun i => l.getD i d)).length ≤ n := by
      simpa using h
    rw [List.getElem?_eq_none h1, List.getElem?_eq_none h]

theorem appendChannels_sound {α : Type} (data : List (List α)) (i : ℕ)
    (chs : List ℕ) :
    ∀ bufs : List (List α), chs.Nodup →
      (∀ ch ∈ chs, ch < data.length ∧ i < (data.getD ch []).length ∧
        ch < bufs.length) →
      (appendChannels data i chs bufs).2 = true ∧
      (appendChannels data i chs bufs).1.length = bufs.length ∧
      (∀ j, j ∉ chs → (appendChannels data i chs bufs).1[j]? = bufs[j]?) ∧
      (∀ j ∈ chs, (appendChannels data i chs bufs).1[j]? =
        some (lastN 1000 (bufs.getD j [] ++ ((data.getD j []).drop i).take 1))) := by
  induction chs with
  | nil =>
    intro bufs _ _
    simp [appendChannels]
  | cons ch rest ih =>
    intro bufs hnd hcond
    obtain ⟨hch, hrow, hb⟩ := hcond ch (List.mem_cons_self ..)
    have hnotmem : ch ∉ rest := (List.nodup_cons.mp hnd).1
    have hrest : rest.Nodup := (List.nodup_cons.mp hnd).2
    have hdata : data.get? ch = some (data.getD ch []) := by
      rw [List.get?_eq_getElem?]; exact getElem?_eq_some_getD [] hch
    obtain ⟨v, hv⟩ : ∃ v, (data.getD ch []).get? i = some v := by
      rw [List.get?_eq_getElem?]
      exact ⟨_, List.getElem?_eq_getElem hrow⟩
    have hbind : (data.get? ch).bind (fun row => row.get? i) = some v := by
      rw [hdata]; simpa using hv
    have hstep : appendChannels data i (ch :: rest) bufs =
        appendChannels data i rest
          (bufs.set ch (dequePush 1000 (bufs.getD ch []) v)) := by
      simp only [appendChannels, hbind]
    set bufs' := bufs.set ch (dequePush 1000 (bufs.getD ch []) v) with hbufs'
    have hcond' : ∀ c ∈ rest, c < data.length ∧ i < (data.getD c []).length ∧
        c < bufs'.length := by
      intro c hc
      obtain ⟨h1, h2, h3⟩ := hcond c (List.mem_cons_of_mem _ hc)
      exact ⟨h1, h2, by simpa [hbufs'] using h3⟩
    obtain ⟨ih1, ih2, ih3, ih4⟩ := ih bufs' hrest hcond'
    have hv' : (data.getD ch [])[i]? = some v := by simpa using hv
    have hvi : (data.getD ch [])[i] = v := by
      have h2 := (List.getElem?_eq_getElem hrow).symm.trans hv'
      simpa using h2
    have htake : ((data.getD ch []).drop i).take 1 = [v] := by
      rw [List.drop_eq_getElem_cons hrow, hvi]
      rfl
    refine ⟨by rw [hstep]; exact ih1, ?_, ?_, ?_⟩
    · rw [hstep, ih2]; simp [hbufs']
    · intro j hj
      have hjch : ch ≠ j := by
        intro e; exact hj (e ▸ List.mem_cons_self ..)
      have hjrest : j ∉ rest := fun hr => hj (List.mem_cons_of_mem _ hr)
      rw [hstep, ih3 j hjrest, hbufs']
      exact List.getElem?_set_ne hjch
    · intro j hj
      rcases List.mem_cons.mp hj with rfl | hjr
      · rw [hstep, ih3 j hnotmem, hbufs', List.getElem?_set_self hb,
          dequePush, htake]
      · rw [hstep, ih4 j hjr]
        have hne : ch ≠ j := fun e => hnotmem (e ▸ hjr)
        have : bufs'.getD j [] = bufs.getD j [] := by
          simp [hbufs', List.getD_eq_getElem?_getD, List.getElem?_set_ne hne]
        rw [this]

end BCI

namespace BCI

theorem getD_mem {α : Type} {l : List α} {n : ℕ} (d : α) (h : n < l.length) :
    l.getD n d ∈ l := by
  rw [List.getD_eq_getElem l d h]
  exact List.getElem_mem h

theorem take_one_drop_append {α : Type} {l : List α} {k : ℕ}
    (h : k < l.length) : (l.drop k).take 1 ++ l.drop (k + 1) = l.drop k := by
  rw [List.drop_eq_getElem_cons h]
  rfl

theorem appendChannels_range8 {α : Type} (data : List (List α)) (i : ℕ)
    (bufs : List (List α)) (hb : bufs.length = 8) (h8 : 8 ≤ data.length)
    (hi : ∀ ch < 8, i < (data.getD ch []).length) :
    appendChannels data i (List.range 8) bufs =
      ((List.range 8).map
        (fun ch => lastN 1000 (bufs.getD ch [] ++ ((data.getD ch []).drop i).take 1)),
       true) := by
  have hcond : ∀ ch ∈ List.range 8, ch < data.length ∧
      i < (data.getD ch []).length ∧ ch < bufs.length := by
    intro ch hch
    have hch8 : ch < 8 := List.mem_range.mp hch
    exact ⟨by omega, hi ch hch8, by omega⟩
  obtain ⟨h1, h2, h3, h4⟩ :=
    appendChannels_sound data i (List.range 8) bufs (List.nodup_range 8) hcond
  have hfst : (appendChannels data i (List.range 8) bufs).1 =
      (List.range 8).map
        (fun ch => lastN 1000 (bufs.getD ch [] ++ ((data.getD ch []).drop i).take 1)) := by
    apply List.ext_getElem?
    intro n
    by_cases hn : n < 8
    · rw [h4 n (List.mem_range.mpr hn), List.getElem?_map, List.getElem?_range hn]
      rfl
    · push_neg at hn
      have hmem : n ∉ List.range 8 := by
        intro hmem; exact absurd (List.mem_range.mp hmem) (by omega)
      have e1 : bufs[n]? = none := List.getElem?_eq_none (by omega)
      have e2 : ((List.range 8).map
          (fun ch => lastN 1000 (bufs.getD ch [] ++ ((data.getD ch []).drop i).take 1)))[n]? =
          none := List.getElem?_eq_none (by simpa using hn)
      rw [h3 n hmem, e1, e2]
  calc appendChannels data i (List.range 8) bufs
      = ((appendChannels data i (List.range 8) bufs).1,
         (appendChannels data i (List.range 8) bufs).2) := rfl
    _ = _ := by rw [hfst, h1]

set_option maxRecDepth 8000 in
theorem sampleLoop_spec {α : Type} (data : List (List α)) (L : ℕ)
    (h8 : 8 ≤ data.length) (hrect : ∀ r ∈ data, r.length = L) :
    ∀ (rem k : ℕ) (st : BCIState α), k + rem = L →
      st.eeg_buffers.length = 8 →
      (∀ b ∈ st.eeg_buffers, b.length ≤ 1000) →
      st.time_buffer.length ≤ 1000 →
      sampleLoop data (List.range' k rem) st =
        ({ st with
            eeg_buffers := (List.range 8).map
              (fun ch => lastN 1000 (st.eeg_buffers.getD ch [] ++ (data.getD ch []).drop k)),
            time_buffer := lastN 1000 (st.time_buffer ++
              (List.range rem).map (fun j : ℕ => st.time_counter + (j : ℚ) * (1/250))),
            time_counter := st.time_counter + (rem : ℚ) * (1/250) }, true) := by
  intro rem
  induction rem with
  | zero =>
    intro k st hk hlen hble htle
    have hegg : (List.range 8).map
        (fun ch => lastN 1000 (st.eeg_buffers.getD ch [] ++ (data.getD ch []).drop k)) =
        st.eeg_buffers := by
      have hpt : ∀ ch ∈ List.range 8,
          lastN 1000 (st.eeg_buffers.getD ch [] ++ (data.getD ch []).drop k) =
          st.eeg_buffers.getD ch [] := by
        intro ch hch
        have hch8 : ch < 8 := List.mem_range.mp hch
        have hrl : (data.getD ch []).length = L :=
          hrect _ (getD_mem [] (by omega))
        have hdrop : (data.getD ch []).drop k = [] :=
          List.drop_eq_nil_of_le (by omega)
        rw [hdrop, List.append_nil]
        exact lastN_of_le (hble _ (getD_mem [] (by omega)))
      rw [List.map_congr_left hpt]
      calc (List.range 8).map (fun ch => st.eeg_buffers.getD ch [])
          = (List.range st.eeg_buffers.length).map
              (fun ch => st.eeg_buffers.getD ch []) := by rw [hlen]
        _ = st.eeg_buffers := map_getD_range _ _
    have htb : lastN 1000 (st.time_buffer ++
        (List.range 0).map (fun j : ℕ => st.time_counter + (j : ℚ) * (1/250))) =
        st.time_buffer := by
      simp [lastN_of_le htle]
    have htc : st.time_counter + ((0 : ℕ) : ℚ) * (1/250) = st.time_counter := by
      norm_num
    rw [show List.range' k 0 = [] from rfl]
    rw [show sampleLoop data [] st = (st, true) from rfl]
    rw [hegg, htb, htc]
  | succ rem ih =>
    intro k st hk hlen hble htle
    have hkL : k < L := by omega
    have hrowlen : ∀ ch, ch < 8 → (data.getD ch []).length = L := by
      intro ch hch
      exact hrect _ (getD_mem [] (by omega))
    have happ := appendChannels_range8 data k st.eeg_buffers hlen h8
      (by intro ch hch; rw [hrowlen ch hch]; exact hkL)
    set st2 : BCIState α := { st with
        eeg_buffers := (List.range 8).map
          (fun ch => lastN 1000 (st.eeg_buffers.getD ch [] ++ ((data.getD ch []).drop k).take 1)),
        time_buffer := dequePush 1000 st.time_buffer st.time_counter,
        time_counter := st.time_counter + 1/250 } with hst2
    have hstep : sampleLoop data (List.range' k (rem + 1)) st =
        sampleLoop data (List.range' (k + 1) rem) st2 := by
      rw [List.range'_succ]
      simp only [sampleLoop, happ, hst2, if_true]
    have hIH := ih (k + 1) st2 (by omega)
      (by simp [hst2])
      (by
        intro b hbm
        rw [hst2] at hbm
        simp only [List.mem_map] at hbm
        obtain ⟨ch, _, rfl⟩ := hbm
        exact lastN_length_le 1000 _)
      (by rw [hst2]; exact lastN_length_le 1000 _)
    have hE : (List.range 8).map
        (fun ch => lastN 1000 (st2.eeg_buffers.getD ch [] ++ (data.getD ch []).drop (k + 1))) =
        (List.range 8).map
        (fun ch => lastN 1000 (st.eeg_buffers.getD ch [] ++ (data.getD ch []).drop k)) := by
      apply List.map_congr_left
      intro ch hch
      have hch8 : ch < 8 := List.mem_range.mp hch
      have hgd : st2.eeg_buffers.getD ch [] =
          lastN 1000 (st.eeg_buffers.getD ch [] ++ ((data.getD ch []).drop k).take 1) := by
        rw [hst2]
        exact getD_map_range _ [] hch8
      rw [hgd, lastN_lastN_append, List.append_assoc,
        take_one_drop_append (by rw [hrowlen ch hch8]; exact hkL)]
    have hcons : st.time_counter ::
        (List.range rem).map (fun j : ℕ => st.time_counter + 1/250 + (j : ℚ) * (1/250)) =
        (List.range (rem + 1)).map (fun j : ℕ => st.time_counter + (j : ℚ) * (1/250)) := by
      rw [List.range_succ_eq_map, List.map_cons, List.map_map]
      congr 1
      · norm_num
      · apply List.map_congr_left
        intro j hj
        simp only [Function.comp_apply]
        push_cast
        ring
    have hT : lastN 1000 (st2.time_buffer ++
        (List.range rem).map (fun j : ℕ => st2.time_counter + (j : ℚ) * (1/250))) =
        lastN 1000 (st.time_buffer ++
        (List.range (rem + 1)).map (fun j : ℕ => st.time_counter + (j : ℚ) * (1/250))) := by
      simp only [hst2, dequePush]
      rw [lastN_lastN_append, List.append_assoc, List.singleton_append, hcons]
    have hC : st2.time_counter + (rem : ℚ) * (1/250) =
        st.time_counter + ((rem + 1 : ℕ) : ℚ) * (1/250) := by
      simp only [hst2]
      push_cast
      ring
    rw [hstep, hIH]
    simp only [Prod.mk.injEq, BCIState.mk.injEq]
    refine ⟨⟨hE, hT, hC, ?_⟩, trivial⟩
    simp [hst2]

end BCI

namespace BCI

set_option maxRecDepth 8000 in
theorem on_new_eeg_data_spec {α : Type} (st : BCIState α) (data : List (List α))
    (hlen : st.eeg_buffers.length = 8)
    (hble : ∀ b ∈ st.eeg_buffers, b.length ≤ 1000)
    (htle : st.time_buffer.length ≤ 1000)
    (hch : 8 ≤ data.length)
    (hrect : ∀ r ∈ data, r.length = batchSize data) :
    on_new_eeg_data st data =
      ({ st with
          eeg_buffers := (List.range 8).map
            (fun ch => lastN 1000 (st.eeg_buffers.getD ch [] ++ data.getD ch [])),
          time_buffer := lastN 1000 (st.time_buffer ++
            (List.range (batchSize data)).map
              (fun j : ℕ => st.time_counter + (j : ℚ) * (1/250))),
          time_counter := st.time_counter + (batchSize data : ℚ) * (1/250),
          samples_label_text := "采样率: 250 Hz" }, true) := by
  have hsl := sampleLoop_spec data (batchSize data) hch hrect (batchSize data) 0 st
    (by omega) hlen hble htle
  rw [← List.range_eq_range'] at hsl
  simp only [List.drop_zero] at hsl
  simp only [batchSize] at hsl
  simp only [on_new_eeg_data, batchSize, hsl, if_true]

theorem timeAxis_length (tc : ℚ) (m : ℕ) : (timeAxis tc m).length = m := by
  simp [timeAxis]

theorem timeAxis_getElem? (tc : ℚ) (m j : ℕ) (h : j < m) :
    (timeAxis tc m)[j]? = some (tc - ((m - j : ℕ) : ℚ) * (1/250)) := by
  unfold timeAxis
  rw [List.getElem?_map, List.getElem?_range h]
  rfl

theorem lastN_timeAxis (N : ℕ) (tc : ℚ) (m : ℕ) :
    lastN N (timeAxis tc m) = timeAxis tc (min N m) := by
  apply List.ext_getElem?
  intro j
  by_cases hj : j < min N m
  · rw [show lastN N (timeAxis tc m) =
      (timeAxis tc m).drop ((timeAxis tc m).length - N) from rfl]
    rw [List.getElem?_drop, timeAxis_length]
    rw [timeAxis_getElem? tc m _ (by omega), timeAxis_getElem? tc (min N m) _ hj]
    have hnat : m - (m - N + j) = min N m - j := by omega
    rw [hnat]
  · have h1 : (lastN N (timeAxis tc m)).length ≤ j := by
      rw [lastN_length, timeAxis_length]; omega
    have h2 : (timeAxis tc (min N m)).length ≤ j := by
      rw [timeAxis_length]; omega
    rw [List.getElem?_eq_none h1, List.getElem?_eq_none h2]

theorem timeAxis_append (tc : ℚ) (n L : ℕ) :
    timeAxis tc n ++ (List.range L).map (fun j : ℕ => tc + (j : ℚ) * (1/250)) =
      timeAxis (tc + (L : ℚ) * (1/250)) (n + L) := by
  apply List.ext_getElem?
  intro j
  by_cases h1 : j < n
  · rw [List.getElem?_append_left (by rw [timeAxis_length]; omega)]
    rw [timeAxis_getElem? _ _ _ h1, timeAxis_getElem? _ _ _ (by omega : j < n + L)]
    have hnat : (n + L - j) = (n - j) + L := by omega
    rw [hnat]
    congr 1
    push_cast
    ring
  · by_cases h2 : j < n + L
    · rw [List.getElem?_append_right (by rw [timeAxis_length]; omega)]
      rw [timeAxis_length]
      rw [List.getElem?_map, List.getElem?_range (by omega : j - n < L)]
      rw [timeAxis_getElem? _ _ _ h2]
      have hnat : (n + L - j) = L - (j - n) := by omega
      rw [hnat]
      have hc : ((L - (j - n) : ℕ) : ℚ) = (L : ℚ) - ((j - n : ℕ) : ℚ) :=
        Nat.cast_sub (by omega : j - n ≤ L)
      simp only [Option.map_some']
      congr 1
      rw [hc]
      ring
    · have ha : (timeAxis tc n ++ (List.range L).map
          (fun j : ℕ => tc + (j : ℚ) * (1/250))).length ≤ j := by
        rw [List.length_append, timeAxis_length, List.length_map, List.length_range]
        omega
      have hb : (timeAxis (tc + (L : ℚ) * (1/250)) (n + L)).length ≤ j := by
        rw [timeAxis_length]; omega
      rw [List.getElem?_eq_none ha, List.getElem?_eq_none hb]

end BCI

namespace BCI

theorem on_new_eeg_data_BufLen {α : Type} {st : BCIState α} {n : ℕ}
    (data : List (List α)) (hB : BufLen st n) (hwf : WFBatch data) :
    (on_new_eeg_data st data).2 = true ∧
    BufLen (on_new_eeg_data st data).1 (min 1000 (n + batchSize data)) ∧
    (on_new_eeg_data st data).1.time_counter =
      st.time_counter + (batchSize data : ℚ) * (1/250) := by
  obtain ⟨h8, hlens, htlen, hle, htax⟩ := hB
  obtain ⟨hch, hrect⟩ := hwf
  have hble : ∀ b ∈ st.eeg_buffers, b.length ≤ 1000 := fun b hb => by
    rw [hlens b hb]; exact hle
  have hm := on_new_eeg_data_spec st data h8 hble (by omega) hch hrect
  rw [hm]
  dsimp only
  refine ⟨rfl, ⟨by simp, ?_, ?_, by omega, ?_⟩, rfl⟩
  · intro b hb
    simp only [List.mem_map, List.mem_range] at hb
    obtain ⟨ch, hch8, rfl⟩ := hb
    rw [lastN_length, List.length_append]
    have hrow : (data.getD ch []).length = batchSize data :=
      hrect _ (getD_mem [] (by omega))
    have hold : (st.eeg_buffers.getD ch []).length = n :=
      hlens _ (getD_mem [] (by omega))
    rw [hrow, hold]
  · rw [lastN_length, List.length_append, htlen, List.length_map,
      List.length_range]
  · rw [htax, timeAxis_append, lastN_timeAxis]

theorem initState_BufLen {α : Type} : BufLen (initState : BCIState α) 0 := by
  refine ⟨by simp [initState], ?_, by simp [initState], by omega,
    by simp [initState, timeAxis]⟩
  intro b hb
  simp only [initState] at hb
  rw [List.eq_of_mem_replicate hb]
  rfl

theorem ingestBatches_inv {α : Type} :
    ∀ (bs : List (List (List α))) (st : BCIState α) (n : ℕ),
      BufLen st n → (∀ b ∈ bs, WFBatch b) →
      BufLen (ingestBatches st bs) (min 1000 (n + totalSamples bs)) ∧
      (ingestBatches st bs).time_counter =
        st.time_counter + (totalSamples bs : ℚ) * (1/250) := by
  intro bs
  induction bs with
  | nil =>
    intro st n hB _
    have hmin : min 1000 (n + totalSamples ([] : List (List (List α)))) = n := by
      have hn : n ≤ 1000 := hB.2.2.2.1
      simp [totalSamples]
      omega
    constructor
    · rw [show ingestBatches st [] = st from rfl, hmin]
      exact hB
    · simp [ingestBatches, totalSamples]
  | cons b bs ih =>
    intro st n hB hwf
    have hwfb : WFBatch b := hwf b (List.mem_cons_self ..)
    have hwfs : ∀ x ∈ bs, WFBatch x := fun x hx =>
      hwf x (List.mem_cons_of_mem _ hx)
    obtain ⟨hflag, hB', htc'⟩ := on_new_eeg_data_BufLen b hB hwfb
    have hstep : ingestBatches st (b :: bs) =
        ingestBatches (on_new_eeg_data st b).1 bs := rfl
    have htot : totalSamples (b :: bs) = batchSize b + totalSamples bs := by
      simp [totalSamples]
    obtain ⟨h1, h2⟩ := ih (on_new_eeg_data st b).1 _ hB' hwfs
    constructor
    · rw [hstep]
      have hmin : min 1000 (n + totalSamples (b :: bs)) =
          min 1000 (min 1000 (n + batchSize b) + totalSamples bs) := by
        rw [htot]; omega
      rw [hmin]
      exact h1
    · rw [hstep, h2, htc', htot]
      push_cast
      ring

end BCI

namespace BCI

theorem timeAxis_getD (tc : ℚ) (m j : ℕ) (h : j < m) :
    (timeAxis tc m).getD j 0 = tc - ((m - j : ℕ) : ℚ) * (1/250) := by
  rw [List.getD_eq_getElem?_getD, timeAxis_getElem? tc m j h]
  rfl

/-- Claim C1: for every sequence of delivered (well-formed) sample batches
ingested via `on_new_eeg_data`, each of the 8 channel ring buffers holds
exactly `min 1000 total_samples_delivered` elements, and all 8 channel
buffers and the time axis buffer have equal length (the common value
`min 1000 total`) at every observation point (every prefix of deliveries
is itself such a sequence). -/
theorem claim1_ring_buffer_lengths {α : Type} (batches : List (List (List α)))
    (hwf : ∀ b ∈ batches, WFBatch b) :
    (∀ ch < 8,
      ((ingestBatches (initState : BCIState α) batches).eeg_buffers.getD ch []).length =
        min 1000 (totalSamples batches)) ∧
    (ingestBatches (initState : BCIState α) batches).time_buffer.length =
      min 1000 (totalSamples batches) ∧
    (ingestBatches (initState : BCIState α) batches).eeg_buffers.length = 8 := by
  obtain ⟨⟨h8, hlens, htlen, _, _⟩, _⟩ :=
    ingestBatches_inv batches initState 0 initState_BufLen hwf
  simp only [Nat.zero_add] at hlens htlen
  refine ⟨?_, htlen, h8⟩
  intro ch hch
  exact hlens _ (getD_mem [] (by omega))

/-- Witness for C1: one delivered batch of 8 channels and 2 samples gives
all buffers length 2 = min 1000 2. -/
theorem claim1_witness :
    ((ingestBatches (initState : BCIState ℚ)
      [List.replicate 8 [(1:ℚ), 2]]).eeg_buffers.getD 0 []).length = 2 ∧
    (ingestBatches (initState : BCIState ℚ)
      [List.replicate 8 [(1:ℚ), 2]]).time_buffer.length = 2 := by
  have hwf : ∀ b ∈ [List.replicate 8 [(1:ℚ), 2]], WFBatch b := by
    intro b hb
    rw [List.mem_singleton] at hb
    subst hb
    exact ⟨by decide, by decide⟩
  have h := claim1_ring_buffer_lengths [List.replicate 8 [(1:ℚ), 2]] hwf
  constructor
  · rw [h.1 0 (by norm_num)]
    decide
  · rw [h.2.1]
    decide

/-- Claim C10: for every ingested rectangular batch with at least 8
channels whose rows have length `L`, `on_new_eeg_data` succeeds and
appends exactly the `L` samples of row `ch` to channel buffer `ch` for
`ch < 8` (with ring eviction beyond capacity, so the new length is
`min 1000 (old + L)`, where `L` is read off the batch itself); channels
beyond index 7 are never read: ingesting the batch equals ingesting its
first 8 rows. -/
theorem claim10_fixed_channels {α : Type} (st : BCIState α)
    (data : List (List α)) (L : ℕ)
    (hlen : st.eeg_buffers.length = 8)
    (hble : ∀ b ∈ st.eeg_buffers, b.length ≤ 1000)
    (htle : st.time_buffer.length ≤ 1000)
    (hch : 8 ≤ data.length)
    (hrect : ∀ r ∈ data, r.length = L) :
    (on_new_eeg_data st data).2 = true ∧
    (∀ ch < 8, (on_new_eeg_data st data).1.eeg_buffers.getD ch [] =
        lastN 1000 (st.eeg_buffers.getD ch [] ++ data.getD ch [])) ∧
    (∀ ch < 8, ((on_new_eeg_data st data).1.eeg_buffers.getD ch []).length =
        min 1000 ((st.eeg_buffers.getD ch []).length + L)) ∧
    on_new_eeg_data st data = on_new_eeg_data st (data.take 8) := by
  have hbs : batchSize data = L := by
    cases data with
    | nil => simp at hch
    | cons x xs => exact hrect x (List.mem_cons_self ..)
  have hrect' : ∀ r ∈ data, r.length = batchSize data := by
    rw [hbs]; exact hrect
  have hm := on_new_eeg_data_spec st data hlen hble htle hch hrect'
  refine ⟨by rw [hm], ?_, ?_, ?_⟩
  · intro ch hch8
    rw [hm]
    dsimp only
    exact getD_map_range _ [] hch8
  · intro ch hch8
    rw [hm]
    dsimp only
    rw [getD_map_range _ [] hch8, lastN_length, List.length_append,
      hrect _ (getD_mem [] (by omega))]
  · have htake_len : 8 ≤ (data.take 8).length := by
      rw [List.length_take]; omega
    have htake_bs : batchSize (data.take 8) = batchSize data := by
      cases data with
      | nil => rfl
      | cons x xs => rfl
    have htake_rect : ∀ r ∈ data.take 8, r.length = batchSize (data.take 8) := by
      intro r hr
      rw [htake_bs]
      exact hrect' r (List.mem_of_mem_take hr)
    have hm2 := on_new_eeg_data_spec st (data.take 8) hlen hble htle
      htake_len htake_rect
    rw [hm, hm2]
    have hgd : ∀ ch ∈ List.range 8,
        lastN 1000 (st.eeg_buffers.getD ch [] ++ (data.take 8).getD ch []) =
        lastN 1000 (st.eeg_buffers.getD ch [] ++ data.getD ch []) := by
      intro ch hch8
      have hc8 : ch < 8 := List.mem_range.mp hch8
      have : (data.take 8).getD ch [] = data.getD ch [] := by
        simp [List.getD_eq_getElem?_getD, List.getElem?_take_of_lt hc8]
      rw [this]
    rw [htake_bs, List.map_congr_left hgd]

/-- Witness for C10: a 9-channel single-sample batch is accepted, channel 0
receives exactly its row, and ingestion coincides with ingesting only the
first 8 rows. -/
theorem claim10_witness :
    (on_new_eeg_data (initState : BCIState ℚ) (List.replicate 9 [(3:ℚ)])).2 = true ∧
    (on_new_eeg_data (initState : BCIState ℚ)
      (List.replicate 9 [(3:ℚ)])).1.eeg_buffers.getD 0 [] = [3] ∧
    on_new_eeg_data (initState : BCIState ℚ) (List.replicate 9 [(3:ℚ)]) =
      on_new_eeg_data (initState : BCIState ℚ) ((List.replicate 9 [(3:ℚ)]).take 8) := by
  have h := claim10_fixed_channels (initState : BCIState ℚ)
    (List.replicate 9 [(3:ℚ)]) 1 (by decide) (by decide) (by decide)
    (by decide) (by decide)
  refine ⟨h.1, ?_, h.2.2.2⟩
  rw [h.2.1 0 (by norm_num)]
  decide

/-- Counterexample to claim C7 as stated: the reconstructed timestamp does
not advance by `1/sample_rate` for any `sample_rate > 0` — after a
well-formed delivery the consecutive time-axis difference is the hardcoded
`1/250`, which differs from `1/500`. -/
theorem claim7_counterexample :
    ¬ (∀ sr : ℚ, 0 < sr →
      (ingestBatches (initState : BCIState ℚ)
        [List.replicate 8 [(1:ℚ), 2]]).time_buffer.getD 1 0 -
      (ingestBatches (initState : BCIState ℚ)
        [List.replicate 8 [(1:ℚ), 2]]).time_buffer.getD 0 0 = 1 / sr) := by
  intro h
  have h250 := h 250 (by norm_num)
  have h500 := h 500 (by norm_num)
  rw [h250] at h500
  norm_num at h500

/-- Amended claim C7: along any sequence of well-formed deliveries the
time-axis values are strictly increasing by exactly `1/250` per inserted
sample — the increment is the hardcoded assumed rate of 250 Hz, not a
per-batch tag — and as long as no eviction has occurred the axis reads
`j * (1/250)`, starting at 0 for the first sample after window
construction. -/
theorem claim7_time_axis_increments {α : Type}
    (batches : List (List (List α))) (hwf : ∀ b ∈ batches, WFBatch b) :
    (∀ j : ℕ,
      j + 1 < (ingestBatches (initState : BCIState α) batches).time_buffer.length →
      (ingestBatches (initState : BCIState α) batches).time_buffer.getD (j+1) 0 =
        (ingestBatches (initState : BCIState α) batches).time_buffer.getD j 0 + 1/250) ∧
    (totalSamples batches ≤ 1000 →
      ∀ j < totalSamples batches,
        (ingestBatches (initState : BCIState α) batches).time_buffer.getD j 0 =
          (j : ℚ) * (1/250)) := by
  obtain ⟨⟨_, _, htlen, _, htax⟩, htc⟩ :=
    ingestBatches_inv batches initState 0 initState_BufLen hwf
  simp only [Nat.zero_add] at htlen htax
  have htc0 : (initState : BCIState α).time_counter = 0 := rfl
  rw [htc0, zero_add] at htc
  constructor
  · intro j hj
    rw [htlen] at hj
    rw [htax, timeAxis_getD _ _ _ (by omega), timeAxis_getD _ _ _ (by omega)]
    have hnat : (min 1000 (totalSamples batches) - j) =
        (min 1000 (totalSamples batches) - (j+1)) + 1 := by omega
    rw [hnat]
    push_cast
    ring
  · intro hle j hj
    have hmin : min 1000 (totalSamples batches) = totalSamples batches := by
      omega
    rw [htax, hmin, timeAxis_getD _ _ _ (by omega), htc]
    rw [Nat.cast_sub (by omega : j ≤ totalSamples batches)]
    ring

/-- Witness for the amended C7: three samples delivered from the initial
state give timestamps starting at 0 and advancing by exactly 1/250. -/
theorem claim7_witness :
    (ingestBatches (initState : BCIState ℚ)
      [List.replicate 8 [(1:ℚ), 2, 3]]).time_buffer.getD 1 0 =
    (ingestBatches (initState : BCIState ℚ)
      [List.replicate 8 [(1:ℚ), 2, 3]]).time_buffer.getD 0 0 + 1/250 ∧
    (ingestBatches (initState : BCIState ℚ)
      [List.replicate 8 [(1:ℚ), 2, 3]]).time_buffer.getD 0 0 = 0 := by
  have hwf : ∀ b ∈ [List.replicate 8 [(1:ℚ), 2, 3]], WFBatch b := by
    intro b hb
    rw [List.mem_singleton] at hb
    subst hb
    exact ⟨by decide, by decide⟩
  have h := claim7_time_axis_increments [List.replicate 8 [(1:ℚ), 2, 3]] hwf
  refine ⟨h.1 0 (by decide), ?_⟩
  have h2 := h.2 (by decide) 0 (by decide)
  simpa using h2

end BCI

namespace BCI

theorem appendChannels_fail {α : Type} (data : List (List α)) (i : ℕ) :
    ∀ (l₁ : List ℕ) (ch₀ : ℕ) (l₂ : List ℕ) (bufs : List (List α)),
      (data.get? ch₀).bind (fun row => row.get? i) = none →
      (∀ ch ∈ l₁, ((data.get? ch).bind (fun row => row.get? i)).isSome) →
      appendChannels data i (l₁ ++ ch₀ :: l₂) bufs =
        ((appendChannels data i l₁ bufs).1, false) := by
  intro l₁
  induction l₁ with
  | nil =>
    intro ch₀ l₂ bufs h0 _
    rw [List.nil_append]
    simp only [appendChannels, h0]
  | cons ch rest ih =>
    intro ch₀ l₂ bufs h0 hsucc
    have hs := hsucc ch (List.mem_cons_self ..)
    obtain ⟨v, hv⟩ := Option.isSome_iff_exists.mp hs
    rw [show (ch :: rest) ++ ch₀ :: l₂ = ch :: (rest ++ ch₀ :: l₂) from rfl]
    simp only [appendChannels, hv]
    exact ih ch₀ l₂ _ h0 (fun c hc => hsucc c (List.mem_cons_of_mem _ hc))

/-- Amended claim C2: a delivered batch with mismatched channel count
(fewer than the 8 channels the window reads) is NOT rejected at ingestion
and the session's prior state is NOT left unmodified: ingestion pushes the
timestamp and advances the time counter, appends the values of the
channels that are present, and only then fails on the missing channel —
leaving the time axis longer than the absent channels' buffers (a torn
state).  Ingestion never inspects sample values (it is parametric in the
value type), so non-finite values are likewise stored, not rejected. -/
theorem claim2_no_validation {α : Type} (st : BCIState α)
    (data : List (List α))
    (hlen : st.eeg_buffers.length = 8)
    (hr : data.length < 8)
    (hL : 1 ≤ batchSize data)
    (hrect : ∀ r ∈ data, r.length = batchSize data) :
    (on_new_eeg_data st data).2 = false ∧
    (on_new_eeg_data st data).1.time_buffer =
      lastN 1000 (st.time_buffer ++ [st.time_counter]) ∧
    (on_new_eeg_data st data).1.time_counter = st.time_counter + 1/250 ∧
    (∀ j, data.length ≤ j →
      (on_new_eeg_data st data).1.eeg_buffers[j]? = st.eeg_buffers[j]?) := by
  have hrange : List.range (batchSize data) =
      0 :: List.range' 1 (batchSize data - 1) := by
    rw [List.range_eq_range']
    conv_lhs =>
      rw [show batchSize data = (batchSize data - 1) + 1 from by omega,
        List.range'_succ]
  have hsplit8 : List.range 8 =
      List.range data.length ++ data.length ::
        List.range' (data.length + 1) (7 - data.length) := by
    have h1 : List.range' data.length (8 - data.length) =
        data.length :: List.range' (data.length + 1) (7 - data.length) := by
      have h2 : 8 - data.length = (7 - data.length) + 1 := by omega
      rw [h2, List.range'_succ]
    have hx := List.range'_append_1 0 data.length (8 - data.length)
    simp only [Nat.zero_add] at hx
    rw [show (8 - data.length) + data.length = 8 from by omega] at hx
    rw [List.range_eq_range', List.range_eq_range', ← hx, h1]
  have hsucc : ∀ ch ∈ List.range data.length,
      ((data.get? ch).bind (fun row => row.get? 0)).isSome := by
    intro ch hch
    have hcr : ch < data.length := List.mem_range.mp hch
    have hget : data.get? ch = some (data.getD ch []) := by
      rw [List.get?_eq_getElem?]; exact getElem?_eq_some_getD [] hcr
    rw [hget, Option.some_bind]
    have hrl : (data.getD ch []).length = batchSize data :=
      hrect _ (getD_mem [] hcr)
    rw [List.get?_eq_getElem?, List.getElem?_eq_getElem (by omega)]
    rfl
  have h0 : (data.get? data.length).bind (fun row => row.get? 0) = none := by
    rw [List.get?_eq_getElem?, List.getElem?_eq_none (le_refl data.length)]
    rfl
  have hfail := appendChannels_fail data 0 (List.range data.length)
    data.length (List.range' (data.length + 1) (7 - data.length))
    st.eeg_buffers h0 hsucc
  have hcond : ∀ ch ∈ List.range data.length, ch < data.length ∧
      0 < (data.getD ch []).length ∧ ch < st.eeg_buffers.length := by
    intro ch hch
    have hcr : ch < data.length := List.mem_range.mp hch
    have hrl : (data.getD ch []).length = batchSize data :=
      hrect _ (getD_mem [] hcr)
    exact ⟨hcr, by omega, by omega⟩
  obtain ⟨_, _, hnot, _⟩ := appendChannels_sound data 0
    (List.range data.length) st.eeg_buffers (List.nodup_range _) hcond
  have hloop : sampleLoop data (List.range (batchSize data)) st =
      ({ st with
          eeg_buffers := (appendChannels data 0 (List.range data.length)
            st.eeg_buffers).1,
          time_buffer := dequePush 1000 st.time_buffer st.time_counter,
          time_counter := st.time_counter + 1/250 }, false) := by
    rw [hrange]
    simp only [sampleLoop]
    rw [hsplit8, hfail]
    dsimp only
    simp only [Bool.false_eq_true, if_false]
  have hmain : on_new_eeg_data st data =
      ({ st with
          eeg_buffers := (appendChannels data 0 (List.range data.length)
            st.eeg_buffers).1,
          time_buffer := dequePush 1000 st.time_buffer st.time_counter,
          time_counter := st.time_counter + 1/250 }, false) := by
    simp only [batchSize] at hloop
    simp only [on_new_eeg_data, hloop]
    simp only [Bool.false_eq_true, if_false]
  refine ⟨by rw [hmain], by rw [hmain]; rfl, by rw [hmain], ?_⟩
  intro j hj
  rw [hmain]
  dsimp only
  exact hnot j (fun hm => absurd (List.mem_range.mp hm) (by omega))

/-- Counterexample to claim C2 as stated: a delivered batch with
mismatched channel count (5 channels instead of 8) is neither rejected nor
does it leave the prior state unmodified — ingesting it into the freshly
constructed window pushes one timestamp and the values of channels 0-4,
then aborts, leaving channel 7 empty while the time axis has one entry: a
torn buffer. -/
theorem claim2_counterexample :
    (on_new_eeg_data (initState : BCIState ℚ)
      (List.replicate 5 [(0:ℚ)])).2 = false ∧
    (on_new_eeg_data (initState : BCIState ℚ)
      (List.replicate 5 [(0:ℚ)])).1.time_buffer = [0] ∧
    (on_new_eeg_data (initState : BCIState ℚ)
      (List.replicate 5 [(0:ℚ)])).1.eeg_buffers.getD 0 [] = [0] ∧
    (on_new_eeg_data (initState : BCIState ℚ)
      (List.replicate 5 [(0:ℚ)])).1.eeg_buffers.getD 7 [] = [] := by
  decide

/-- Witness for the amended C2: the 5-channel batch leaves channels at
index 5 and above untouched while the time counter has advanced. -/
theorem claim2_witness :
    (on_new_eeg_data (initState : BCIState ℚ)
      (List.replicate 5 [(0:ℚ)])).1.eeg_buffers[7]? = some [] ∧
    (on_new_eeg_data (initState : BCIState ℚ)
      (List.replicate 5 [(0:ℚ)])).1.time_counter = 0 + 1/250 := by
  have h := claim2_no_validation (initState : BCIState ℚ)
    (List.replicate 5 [(0:ℚ)]) (by decide) (by decide) (by decide) (by decide)
  constructor
  · rw [h.2.2.2 7 (by norm_num)]
    decide
  · exact h.2.2.1

end BCI

namespace BCI

/-- Counterexample to claim C3 as stated: the channel buffers and the time
axis are NOT empty after a disconnect — disconnecting right after one
delivered batch leaves the two ingested timestamps in the time axis. -/
theorem claim3_counterexample :
    (disconnectSession ((on_new_eeg_data (initState : BCIState ℚ)
      (List.replicate 8 [(1:ℚ), 2])).1)).time_buffer ≠ [] ∧
    (disconnectSession ((on_new_eeg_data (initState : BCIState ℚ)
      (List.replicate 8 [(1:ℚ), 2])).1)).time_buffer.length = 2 := by
  have h2 : (disconnectSession ((on_new_eeg_data (initState : BCIState ℚ)
      (List.replicate 8 [(1:ℚ), 2])).1)).time_buffer.length = 2 := by decide
  refine ⟨?_, h2⟩
  intro h
  rw [h] at h2
  simp at h2

/-- Amended claim C3: in every state, invoking the disconnect branch of
`toggle_connection` twice in a row produces the same terminal state as
invoking it once, and no double-stop error occurs (stopping an
already-stopped worker just rewrites its `running` flag); however the
channel buffers, the time axis buffer and the time counter are NOT
cleared — they survive the disconnect unchanged. -/
theorem claim3_disconnect_idempotent {α : Type} (st : BCIState α) :
    disconnectSession (disconnectSession st) = disconnectSession st ∧
    (disconnectSession st).eeg_buffers = st.eeg_buffers ∧
    (disconnectSession st).time_buffer = st.time_buffer ∧
    (disconnectSession st).time_counter = st.time_counter := by
  cases h : st.data_thread with
  | none => simp [disconnectSession, h]
  | some t => simp [disconnectSession, h]

/-- Counterexample to claim C4 as stated: on an exact probability tie the
displayed class is the right hand (class 1, text `右手 →`), not the
claimed first/lowest-index class (class 0, left hand, text `← 左手`). -/
theorem claim4_counterexample :
    (on_new_inference (initState : BCIState ℚ) [1/2, 1/2]).class_text =
      "右手 →" ∧
    "右手 →" ≠ "← 左手" := by
  constructor
  · simp [on_new_inference]
  · decide

/-- Amended claim C4: the discrete label is derived by argmax, but on an
exact tie (`probs[0] == probs[1]`) the label is class 1 (right hand), the
last/highest-index class — class 0 is displayed only when `probs[0]`
strictly exceeds `probs[1]`. -/
theorem claim4_argmax_tie_last {α : Type} (st : BCIState α) (a b : ℚ) :
    (on_new_inference st [a, b]).class_text =
      (if argmaxTieLast [a, b] = 0 then "← 左手" else "右手 →") ∧
    (a = b → argmaxTieLast [a, b] = 1) := by
  have hmax : argmaxTieLast [a, b] = if a ≤ b then 1 else 0 := by
    simp only [argmaxTieLast, argmaxFrom]
  constructor
  · by_cases hab : b < a
    · have hnle : ¬ a ≤ b := not_le.mpr hab
      simp [on_new_inference, hmax, hab, hnle]
    · have hle : a ≤ b := not_lt.mp hab
      simp [on_new_inference, hmax, hab, hle]
  · intro he
    rw [hmax, if_pos (le_of_eq he)]

/-- Witness for the amended C4: on the tie `[1/3, 1/3]` the code displays
the right-hand text and the tie-to-last argmax is class 1. -/
theorem claim4_witness :
    (on_new_inference (initState : BCIState ℚ) [1/3, 1/3]).class_text =
      "右手 →" ∧
    argmaxTieLast [(1:ℚ)/3, 1/3] = 1 := by
  have h := claim4_argmax_tie_last (initState : BCIState ℚ) (1/3) (1/3)
  have h2 := h.2 rfl
  refine ⟨?_, h2⟩
  rw [h.1, h2]
  rfl

end BCI

namespace BCI

/-- Claim C6: for every two-class input probability vector, after clamping
each component into [0.05, 0.95] and renormalizing by the post-clamp sum,
the components sum to exactly 1 (exact rational arithmetic; a fortiori
within any floating tolerance) and every resulting component again lies in
[0.05, 0.95]. -/
theorem claim6_clamp_renormalize (a b : ℚ) :
    (clampRenormalize [a, b]).sum = 1 ∧
    (∀ x ∈ clampRenormalize [a, b], 5/100 ≤ x ∧ x ≤ 95/100) := by
  have hca1 : 5/100 ≤ clip (5/100) (95/100) a :=
    le_min (by norm_num) (le_max_left _ _)
  have hca2 : clip (5/100) (95/100) a ≤ 95/100 := min_le_left _ _
  have hcb1 : 5/100 ≤ clip (5/100) (95/100) b :=
    le_min (by norm_num) (le_max_left _ _)
  have hcb2 : clip (5/100) (95/100) b ≤ 95/100 := min_le_left _ _
  set ca := clip (5/100) (95/100) a with hca
  set cb := clip (5/100) (95/100) b with hcb
  have hspos : 0 < ca + cb := by linarith
  have hs : clampRenormalize [a, b] = [ca / (ca + cb), cb / (ca + cb)] := by
    simp [clampRenormalize, hca, hcb]
  have key : ∀ p q : ℚ, 5/100 ≤ p → p ≤ 95/100 → 5/100 ≤ q → q ≤ 95/100 →
      5/100 ≤ p / (p + q) ∧ p / (p + q) ≤ 95/100 := by
    intro p q h1 h2 h3 h4
    have hpq : 0 < p + q := by linarith
    constructor
    · rw [le_div_iff₀ hpq]
      linarith
    · rw [div_le_iff₀ hpq]
      linarith
  constructor
  · rw [hs]
    simp only [List.sum_cons, List.sum_nil, add_zero]
    rw [div_add_div_same, div_self (ne_of_gt hspos)]
  · intro x hx
    rw [hs] at hx
    simp only [List.mem_cons, List.not_mem_nil, or_false] at hx
    rcases hx with rfl | rfl
    · exact key ca cb hca1 hca2 hcb1 hcb2
    · rw [add_comm ca cb]
      exact key cb ca hcb1 hcb2 hca1 hca2

/-- Witness for C6: the input [1, 0] clamps to [0.95, 0.05]; the result
sums to 1 and its head component 0.95 respects both bounds. -/
theorem claim6_witness :
    (clampRenormalize [(1:ℚ), 0]).sum = 1 ∧
    (5/100 ≤ ((19:ℚ)/20) ∧ ((19:ℚ)/20) ≤ 95/100) := by
  have h := claim6_clamp_renormalize 1 0
  refine ⟨h.1, ?_⟩
  have hval : clampRenormalize [(1:ℚ), 0] = [19/20, 1/20] := by
    norm_num [clampRenormalize, clip]
  have hm : ((19:ℚ)/20) ∈ clampRenormalize [(1:ℚ), 0] := by
    rw [hval]
    exact List.mem_cons_self ..
  exact h.2 _ hm

/-- Claim C8: feeding the probability vector [1.0, 0.0] through the
clamp-and-renormalize post-processing yields [0.95, 0.05]; delivering the
result to `on_new_inference` stores it, displays the class-0 (left hand)
label because 0.95 > 0.05, and reports confidence
max(probabilities) * 100 = 95.0. -/
theorem claim8_scenario4 :
    clampRenormalize [(1:ℚ), 0] = [19/20, 1/20] ∧
    (on_new_inference (initState : BCIState ℚ)
      (clampRenormalize [(1:ℚ), 0])).inference_probs = [19/20, 1/20] ∧
    (on_new_inference (initState : BCIState ℚ)
      (clampRenormalize [(1:ℚ), 0])).class_text = "← 左手" ∧
    (on_new_inference (initState : BCIState ℚ)
      (clampRenormalize [(1:ℚ), 0])).confidence_val = some 95 := by
  have hcr : clampRenormalize [(1:ℚ), 0] = [19/20, 1/20] := by
    norm_num [clampRenormalize, clip]
  refine ⟨hcr, ?_, ?_, ?_⟩
  · rw [hcr]
    norm_num [on_new_inference]
  · rw [hcr]
    norm_num [on_new_inference]
  · rw [hcr]
    norm_num [on_new_inference, pyMax]

/-- Claim C9: a render tick never mutates the producer-owned state — the
channel buffers, the time axis, the time counter and the stored
probability vector are unchanged by `update_plots` — and when no session
is active or no samples have ever arrived the tick is a complete no-op,
not an error. -/
theorem claim9_render_pure (st : BCIState ℚ) :
    (update_plots st).eeg_buffers = st.eeg_buffers ∧
    (update_plots st).time_buffer = st.time_buffer ∧
    (update_plots st).time_counter = st.time_counter ∧
    (update_plots st).inference_probs = st.inference_probs ∧
    ((st.is_connected = false ∨ st.time_buffer = []) → update_plots st = st) := by
  by_cases h : st.is_connected = false ∨ st.time_buffer = []
  · have hid : update_plots st = st := by
      simp only [update_plots, if_pos h]
    rw [hid]
    exact ⟨rfl, rfl, rfl, rfl, fun _ => rfl⟩
  · refine ⟨?_, ?_, ?_, ?_, fun hc => absurd hc h⟩ <;>
    · simp only [update_plots, if_neg h]
      cases hcs : computeSpectrum (st.eeg_buffers.getD 0 []) with
      | some f => simp only [hcs]
      | none => simp only [hcs]

/-- Witness for C9: on the freshly constructed (disconnected) window the
render tick is a no-op. -/
theorem claim9_witness :
    update_plots (initState : BCIState ℚ) = initState ∧
    (update_plots (initState : BCIState ℚ)).eeg_buffers =
      (initState : BCIState ℚ).eeg_buffers := by
  have h := claim9_render_pure initState
  exact ⟨h.2.2.2.2 (Or.inl rfl), h.1⟩

end BCI

namespace BCI

theorem rfftfreq_getD_nonneg (n : ℕ) (d : ℚ) (hd : 0 ≤ d) (k : ℕ) :
    0 ≤ (rfftfreq n d).getD k 0 := by
  rw [List.getD_eq_getElem?_getD]
  cases hk : (rfftfreq n d)[k]? with
  | none => simp
  | some q =>
    simp only [Option.getD_some]
    have hmem : q ∈ rfftfreq n d := List.getElem?_mem hk
    simp only [rfftfreq, List.mem_map, List.mem_range] at hmem
    obtain ⟨j, _, rfl⟩ := hmem
    exact div_nonneg (Nat.cast_nonneg j) (mul_nonneg (Nat.cast_nonneg n) hd)

/-- Claim C5: within an active session (connected, and with the time axis
in step with the reference channel, which every reachable state
satisfies), the render tick produces a spectral frame if and only if at
least 256 reference-channel samples are buffered — fewer is "not ready"
(the previously displayed frame is simply kept and no error occurs) — and
every produced frequency bin lies within [0, 50] Hz.  The frame itself is
`computeSpectrum` of the current buffer: by definition the dB power
`20*log10(|DFT(hann * last-256-samples)| + 1e-10)` over those bins,
recomputed fresh from the buffer contents. -/
theorem claim5_spectral_readiness (st : BCIState ℚ)
    (hconn : st.is_connected = true)
    (hinv : st.time_buffer.length = (st.eeg_buffers.getD 0 []).length) :
    ((computeSpectrum (st.eeg_buffers.getD 0 [])).isSome = true ↔
      256 ≤ (st.eeg_buffers.getD 0 []).length) ∧
    (update_plots st).spectrum_data =
      (if 256 ≤ (st.eeg_buffers.getD 0 []).length
        then computeSpectrum (st.eeg_buffers.getD 0 [])
        else st.spectrum_data) ∧
    (∀ frame, computeSpectrum (st.eeg_buffers.getD 0 []) = some frame →
      ∀ p ∈ frame, 0 ≤ p.1 ∧ p.1 ≤ 50) := by
  have hiff : (computeSpectrum (st.eeg_buffers.getD 0 [])).isSome = true ↔
      256 ≤ (st.eeg_buffers.getD 0 []).length := by
    by_cases h : 256 ≤ (st.eeg_buffers.getD 0 []).length
    · simp [computeSpectrum, h]
    · simp [computeSpectrum, h]
  refine ⟨hiff, ?_, ?_⟩
  · by_cases h256 : 256 ≤ (st.eeg_buffers.getD 0 []).length
    · have htb : ¬ (st.is_connected = false ∨ st.time_buffer = []) := by
        rintro (hc | hc)
        · rw [hconn] at hc
          exact Bool.noConfusion hc
        · rw [hc] at hinv
          simp only [List.length_nil] at hinv
          omega
      obtain ⟨f, hf⟩ := Option.isSome_iff_exists.mp (hiff.mpr h256)
      rw [if_pos h256]
      simp only [update_plots, if_neg htb, hf]
    · rw [if_neg h256]
      by_cases htb : st.is_connected = false ∨ st.time_buffer = []
      · simp only [update_plots, if_pos htb]
      · have hnone : computeSpectrum (st.eeg_buffers.getD 0 []) = none := by
          cases hcs : computeSpectrum (st.eeg_buffers.getD 0 []) with
          | none => rfl
          | some f =>
            exact absurd (hiff.mp (by rw [hcs]; rfl)) h256
        simp only [update_plots, if_neg htb, hnone]
  · intro frame hframe p hp
    by_cases h256 : 256 ≤ (st.eeg_buffers.getD 0 []).length
    · simp only [computeSpectrum, if_pos h256, Option.some.injEq] at hframe
      subst hframe
      obtain ⟨hpmem, hple⟩ := List.mem_filter.mp hp
      refine ⟨?_, of_decide_eq_true hple⟩
      simp only [List.mem_map, List.mem_range] at hpmem
      obtain ⟨k, hk, rfl⟩ := hpmem
      exact rfftfreq_getD_nonneg 256 _ (by norm_num) k
    · have hnone : computeSpectrum (st.eeg_buffers.getD 0 []) = none := by
        cases hcs : computeSpectrum (st.eeg_buffers.getD 0 []) with
        | none => rfl
        | some f =>
          exact absurd (hiff.mp (by rw [hcs]; rfl)) h256
      rw [hnone] at hframe
      exact Option.noConfusion hframe

/-- Witness for C5: with exactly 256 zero samples buffered on the
reference channel of a connected session, the spectral frame is
produced. -/
theorem claim5_witness :
    (computeSpectrum (List.replicate 256 (0:ℚ))).isSome = true := by
  have hinv : specReadyState.time_buffer.length =
      (specReadyState.eeg_buffers.getD 0 []).length := by
    simp [specReadyState, initState]
  have h := (claim5_spectral_readiness specReadyState rfl hinv).1
  have hbuf : specReadyState.eeg_buffers.getD 0 [] =
      List.replicate 256 (0:ℚ) := rfl
  rw [hbuf] at h
  exact h.mpr (by simp)

end BCI
